import Mathlib

/-!
Verification of the emoji list generator (`generate/generate.go`, plus the two
historical variants of the same program kept in the repository).

Modelling conventions:
  * Go strings that hold emoji or table text are modelled as `List Char`
    (sequences of Unicode codepoints).  The Go code builds these strings from
    runes, so they are valid UTF-8 and rune-level operations (dropping the
    last rune by its encoded byte width, byte-lexicographic comparison)
    coincide with the corresponding codepoint-level operations used here.
  * Go maps are modelled as association lists where insertion prepends and
    `List.lookup` finds the most recent binding, matching Go's
    overwrite-on-assign semantics.
  * Fallible Go functions return a `PResult`: `ok` for a normal result,
    `fails` for a returned error, `panics` for a runtime panic.
-/

namespace EmojiGen

/-- An emoji value: a sequence of Unicode codepoints (a Go string). -/
abbrev Emoji := List Char

/-- Result of running a Go function that may return an error or panic. -/
inductive PResult (α : Type) where
  | panics : PResult α
  | fails : PResult α
  | ok : α → PResult α
deriving DecidableEq

/-- U+FE0F, the emoji presentation selector. -/
def presSel : Char := Char.ofNat 0xFE0F

/-- `removePresentationSelector` (generate.go:195-197):
`strings.ReplaceAll(emoji, "️", "")` removes every occurrence of the
presentation selector. -/
def removePresentationSelector (e : Emoji) : Emoji :=
  e.filter (fun c => c ≠ presSel)

/-- The collation rank table built by `collationData`: emoji keys mapped to
integer ranks.  Insertion prepends, `List.lookup` sees the latest binding. -/
abbrev RankTable := List (Emoji × Int)

/-- Core loop of `collationOrder` (generate.go:252-261), written on the
reversed codepoint list so that dropping the last codepoint of the emoji is
structural recursion: `collationOrderRev t (c :: rest)` inspects the string
`rest.reverse ++ [c]` and recurses on `rest`, the same string with its last
codepoint dropped. -/
def collationOrderRev (t : RankTable) : List Char → Int
  | [] => -1
  | c :: rest =>
    match List.lookup (removePresentationSelector (rest.reverse ++ [c])) t with
    | some n => n
    | none => collationOrderRev t rest

/-- `collationOrder` (generate.go:252-261): look up the selector-stripped
emoji; while not found, drop the last codepoint and retry; return -1 when the
string becomes empty. -/
def collationOrder (e : Emoji) (t : RankTable) : Int :=
  collationOrderRev t e.reverse

theorem collationOrder_nil (t : RankTable) : collationOrder [] t = -1 := rfl

theorem collationOrder_concat (l : List Char) (a : Char) (t : RankTable) :
    collationOrder (l ++ [a]) t =
      match List.lookup (removePresentationSelector (l ++ [a])) t with
      | some n => n
      | none => collationOrder l t := by
  have h : (l ++ [a]).reverse = a :: l.reverse := by simp
  unfold collationOrder
  rw [h]
  unfold collationOrderRev
  rw [List.reverse_reverse]
  cases List.lookup (removePresentationSelector (l ++ [a])) t with
  | some n => rfl
  | none =>
      cases l.reverse with
      | nil => rfl
      | cons c rest => rfl

theorem prefix_dropLast_of_length_lt {α : Type} {p e : List α}
    (hp : p <+: e) (hlt : p.length < e.length) : p <+: e.dropLast :=
  List.prefix_of_prefix_length_le hp ( List.dropLast_prefix e)
    (by simp only [List.length_dropLast]; omega)

/-- C1: for every emoji string and every rank table, `collationOrder` returns
the rank of the longest non-empty prefix (obtained by repeatedly dropping the
last codepoint) whose presentation-selector-stripped form is a key of the
table, and the sentinel -1 when no non-empty prefix matches. -/
theorem collationOrder_longest_prefix (e : Emoji) (t : RankTable) :
    (collationOrder e t = -1 ∧
      ∀ p, p <+: e → p ≠ [] →
        List.lookup (removePresentationSelector p) t = none) ∨
    (∃ p n, p <+: e ∧ p ≠ [] ∧
      List.lookup (removePresentationSelector p) t = some n ∧
      collationOrder e t = n ∧
      ∀ q, q <+: e → p.length < q.length →
        List.lookup (removePresentationSelector q) t = none) := by
  induction e using List.reverseRecOn with
  | nil =>
      left
      exact ⟨rfl, fun p hp hne => absurd (List.prefix_nil.mp hp) hne⟩
  | append_singleton l a ih =>
      have hcat := collationOrder_concat l a t
      have hdrop : (l ++ [a]).dropLast = l := by simp
      cases hlook : List.lookup (removePresentationSelector (l ++ [a])) t with
      | some n =>
          simp only [hlook] at hcat
          right
          refine ⟨l ++ [a], n, List.prefix_rfl, by simp, hlook, hcat, ?_⟩
          intro q hq hlen
          exact absurd hq.length_le (by omega)
      | none =>
          simp only [hlook] at hcat
          rcases ih with ⟨h1, h2⟩ | ⟨p, n, hp, hpne, hfound, heq, hmax⟩
          · left
            refine ⟨hcat.trans h1, ?_⟩
            intro p hp hpne
            by_cases hpe : p.length < (l ++ [a]).length
            · refine h2 p ?_ hpne
              rw [← hdrop]
              exact prefix_dropLast_of_length_lt hp hpe
            · have hpeq : p = l ++ [a] :=
                hp.eq_of_length (le_antisymm hp.length_le (not_lt.mp hpe))
              subst hpeq
              exact hlook
          · right
            refine ⟨p, n, hp.trans (List.prefix_append l [a]), hpne, hfound,
              hcat.trans heq, ?_⟩
            intro q hq hlen
            by_cases hqe : q.length < (l ++ [a]).length
            · refine hmax q ?_ hlen
              rw [← hdrop]
              exact prefix_dropLast_of_length_lt hq hqe
            · have hqeq : q = l ++ [a] :=
                hq.eq_of_length (le_antisymm hq.length_le (not_lt.mp hqe))
              subst hqeq
              exact hlook

/-- Go `unicode.IsSpace`: the Unicode white-space characters trimmed by
`strings.TrimSpace`. -/
def goIsSpace (c : Char) : Bool :=
  decide ((9 ≤ c.toNat ∧ c.toNat ≤ 13) ∨ c.toNat = 32 ∨ c.toNat = 0x85 ∨
    c.toNat = 0xA0 ∨ c.toNat = 0x1680 ∨ (0x2000 ≤ c.toNat ∧ c.toNat ≤ 0x200A) ∨
    c.toNat = 0x2028 ∨ c.toNat = 0x2029 ∨ c.toNat = 0x202F ∨ c.toNat = 0x205F ∨
    c.toNat = 0x3000)

/-- Go `strings.TrimSpace`: drop white space from both ends. -/
def trimSpace (l : List Char) : List Char :=
  ((l.dropWhile goIsSpace).reverse.dropWhile goIsSpace).reverse

/-- Go `strings.SplitN(s, sep, n)` for a single-character separator: split
around the first `n-1` occurrences of `sep`, the last field keeping the rest. -/
def goSplitN (sep : Char) : Nat → List Char → List (List Char)
  | 0, _ => []
  | 1, l => [l]
  | _ + 2, [] => [[]]
  | n + 2, c :: cs =>
    if c = sep then [] :: goSplitN sep (n + 1) cs
    else
      match goSplitN sep (n + 2) cs with
      | [] => [[c]]
      | f :: fs => (c :: f) :: fs

/-- Value of a hexadecimal digit, as accepted by `strconv.ParseInt` base 16. -/
def hexDigitVal (c : Char) : Option Nat :=
  if '0' ≤ c ∧ c ≤ '9' then some (c.toNat - '0'.toNat)
  else if 'a' ≤ c ∧ c ≤ 'f' then some (c.toNat - 'a'.toNat + 10)
  else if 'A' ≤ c ∧ c ≤ 'F' then some (c.toNat - 'A'.toNat + 10)
  else none

/-- Go `strconv.ParseInt(s, 16, 32)`: optional sign, then a non-empty run of
hex digits; `none` on a syntax error or a value outside the int32 range. -/
def parseHexInt32 (s : List Char) : Option Int :=
  let signed : Int × List Char :=
    match s with
    | '+' :: rest => (1, rest)
    | '-' :: rest => (-1, rest)
    | _ => (1, s)
  match signed.2 with
  | [] => none
  | ds =>
    match ds.foldlM (fun acc c => (hexDigitVal c).map (fun d => acc * 16 + d))
        (0 : Nat) with
    | none => none
    | some v =>
      let value : Int := signed.1 * (v : Int)
      if value < -(2 ^ 31) ∨ 2 ^ 31 - 1 < value then none else some value

/-- Go `strings.Cut(s, "..")`: split around the first occurrence of `..`. -/
def cutDotDot : List Char → Option (List Char × List Char)
  | [] => none
  | '.' :: '.' :: rest => some ([], rest)
  | c :: rest =>
    match cutDotDot rest with
    | some (a, b) => some (c :: a, b)
    | none => none

/-- Go `string([]rune{rune(i)})` for an int32 value: invalid scalar values
(negative, surrogate, or above U+10FFFF) become U+FFFD. -/
def runeToChar (i : Int) : Char :=
  if 0 ≤ i ∧ (i < 0xD800 ∨ (0xE000 ≤ i ∧ i < 0x110000)) then Char.ofNat i.toNat
  else Char.ofNat 0xFFFD

/-- `parseEmojiDataLine` (generate.go:27-63): strip the comment, skip blank
lines, split on `;`, and read either a `START..END` codepoint range (one
single-codepoint emoji per value in the range) or a space-separated codepoint
sequence (one multi-codepoint emoji).  The Go code allocates the range slice
with `make([]string, 0, end-start+1)`, which panics when that capacity is
negative; this is modelled by the `panics` result. -/
def parseEmojiDataLine (line : List Char) : PResult (List Emoji × List Char) :=
  let stripped := line.takeWhile (fun c => c ≠ '#')
  if stripped = [] then .ok ([], [])
  else
    match goSplitN ';' 3 stripped with
    | p0 :: p1 :: _ =>
      let codePointsStr := trimSpace p0
      let tag := trimSpace p1
      match cutDotDot codePointsStr with
      | some (startStr, endStr) =>
        match parseHexInt32 startStr with
        | none => .fails
        | some start =>
          match parseHexInt32 endStr with
          | none => .fails
          | some stop =>
            if stop - start + 1 < 0 then .panics
            else
              .ok ((List.range (stop - start + 1).toNat).map
                (fun k => [runeToChar (start + (k : Int))]), tag)
      | none =>
        match (List.splitOn ' ' codePointsStr).mapM parseHexInt32 with
        | none => .fails
        | some vals => .ok ([vals.map runeToChar], tag)
    | _ => .fails

/-- C10: `parseEmojiDataLine` is claimed to be total and panic-free on every
input line.  The code evaluated at the line `3..1 ; x` (a range whose start
exceeds its end by more than one) instead reaches
`make([]string, 0, end-start+1)` with capacity -1 and panics. -/
theorem parseEmojiDataLine_negative_range_panics :
    parseEmojiDataLine ("3..1 ; x").toList = .panics := by decide

/-- `emojiModifiers` (generate.go:65-87), line-processing part: parse every
line and collect the emoji of lines tagged `Emoji_Modifier`. -/
def emojiModifiers : List (List Char) → PResult (List Emoji)
  | [] => .ok []
  | l :: ls =>
    match parseEmojiDataLine l with
    | .panics => .panics
    | .fails => .fails
    | .ok (es, tag) =>
      match emojiModifiers ls with
      | .ok rest =>
        .ok ((if tag = ("Emoji_Modifier").toList then es else []) ++ rest)
      | r => r

/-- `emojisInFile` (generate.go:89-113), line-processing part: parse every
line and keep each parsed emoji that is not in the modifier set. -/
def emojisInFile : List (List Char) → List Emoji → PResult (List Emoji)
  | [], _ => .ok []
  | l :: ls, mods =>
    match parseEmojiDataLine l with
    | .panics => .panics
    | .fails => .fails
    | .ok (es, _) =>
      match emojisInFile ls mods with
      | .ok rest => .ok (es.filter (fun e => !mods.contains e) ++ rest)
      | r => r

/-- `emojis` (generate.go:115-133): build the modifier set from the property
table, then concatenate the filtered sequence-table and ZWJ-sequence-table
emoji. -/
def emojis (dataLines seqLines zwjLines : List (List Char)) :
    PResult (List Emoji) :=
  match emojiModifiers dataLines with
  | .panics => .panics
  | .fails => .fails
  | .ok mods =>
    match emojisInFile seqLines mods with
    | .ok seqs =>
      match emojisInFile zwjLines mods with
      | .ok zwjs => .ok (seqs ++ zwjs)
      | r => r
    | r => r

/-- Specification-side description of a table parse: every emoji parsed from
the file, in file order, with no filtering applied. -/
def parsedEmojis : List (List Char) → PResult (List Emoji)
  | [] => .ok []
  | l :: ls =>
    match parseEmojiDataLine l with
    | .panics => .panics
    | .fails => .fails
    | .ok (es, _) =>
      match parsedEmojis ls with
      | .ok rest => .ok (es ++ rest)
      | r => r

theorem emojisInFile_eq_filter (mods : List Emoji) :
    ∀ lines, emojisInFile lines mods =
      match parsedEmojis lines with
      | .panics => .panics
      | .fails => .fails
      | .ok es => .ok (es.filter (fun e => !mods.contains e))
  | [] => by simp [emojisInFile, parsedEmojis]
  | l :: ls => by
    have ih := emojisInFile_eq_filter mods ls
    simp only [emojisInFile, parsedEmojis]
    cases parseEmojiDataLine l with
    | panics => rfl
    | fails => rfl
    | ok p =>
      rw [ih]
      cases parsedEmojis ls with
      | panics => rfl
      | fails => rfl
      | ok es => simp [List.filter_append]

/-- C3: when `emojis` succeeds, the built emoji set is exactly the emoji
parsed from the sequence table followed by those parsed from the ZWJ-sequence
table, keeping every parsed value except those in the modifier set; in
particular no member of the modifier set appears as its own entry. -/
theorem emoji_set_builder_filter (dataLines seqLines zwjLines : List (List Char))
    (mods es : List Emoji)
    (hmods : emojiModifiers dataLines = .ok mods)
    (hes : emojis dataLines seqLines zwjLines = .ok es) :
    ∃ seqAll zwjAll,
      parsedEmojis seqLines = .ok seqAll ∧
      parsedEmojis zwjLines = .ok zwjAll ∧
      es = (seqAll ++ zwjAll).filter (fun e => !mods.contains e) ∧
      ∀ m ∈ mods, m ∉ es := by
  unfold emojis at hes
  rw [hmods] at hes
  simp only at hes
  rw [emojisInFile_eq_filter mods seqLines] at hes
  rw [emojisInFile_eq_filter mods zwjLines] at hes
  cases hs : parsedEmojis seqLines with
  | panics => rw [hs] at hes; cases hes
  | fails => rw [hs] at hes; cases hes
  | ok seqAll =>
    cases hz : parsedEmojis zwjLines with
    | panics => rw [hs, hz] at hes; cases hes
    | fails => rw [hs, hz] at hes; cases hes
    | ok zwjAll =>
      rw [hs, hz] at hes
      cases hes
      refine ⟨seqAll, zwjAll, rfl, rfl, (List.filter_append _ _).symm, ?_⟩
      intro m hm hmem
      rw [← List.filter_append] at hmem
      have hf := List.of_mem_filter hmem
      simp [List.contains] at hf
      exact hf hm

/-- Witness for the C3 theorem at the spec's concrete example: `1F3FB` is an
`Emoji_Modifier`, the sequence table lists `1F3FB` and `1F44D 1F3FB`, and the
built set keeps only the two-codepoint sequence. -/
theorem emoji_set_builder_filter_witness :
    emojiModifiers [("1F3FB ; Emoji_Modifier").toList] =
      .ok [[Char.ofNat 0x1F3FB]] ∧
    emojis [("1F3FB ; Emoji_Modifier").toList]
      [("1F3FB ; Basic_Emoji").toList, ("1F44D 1F3FB ; Seq").toList] [] =
      .ok [[Char.ofNat 0x1F44D, Char.ofNat 0x1F3FB]] ∧
    (∃ seqAll zwjAll,
      parsedEmojis
        [("1F3FB ; Basic_Emoji").toList, ("1F44D 1F3FB ; Seq").toList] =
        .ok seqAll ∧
      parsedEmojis [] = .ok zwjAll ∧
      [[Char.ofNat 0x1F44D, Char.ofNat 0x1F3FB]] =
        (seqAll ++ zwjAll).filter
          (fun e => !([[Char.ofNat 0x1F3FB]] : List Emoji).contains e) ∧
      ∀ m ∈ ([[Char.ofNat 0x1F3FB]] : List Emoji),
        m ∉ [[Char.ofNat 0x1F44D, Char.ofNat 0x1F3FB]]) :=
  ⟨by decide, by decide,
    emoji_set_builder_filter [("1F3FB ; Emoji_Modifier").toList]
      [("1F3FB ; Basic_Emoji").toList, ("1F44D 1F3FB ; Seq").toList] []
      [[Char.ofNat 0x1F3FB]] [[Char.ofNat 0x1F44D, Char.ofNat 0x1F3FB]]
      (by decide) (by decide)⟩

/-- Go `strings.FieldsFunc`: the maximal runs of characters that do not
satisfy `p`; no empty fields are produced. -/
def fieldsFunc (p : Char → Bool) (l : List Char) : List (List Char) :=
  (List.splitOnP p l).filter (fun f => f ≠ [])

/-- One `<annotation>` element of a CLDR annotation file after XML decoding:
the `cp` attribute, the `type` attribute (empty when absent) and the element
content. -/
structure XmlAnnotationElem where
  cp : List Char
  ty : List Char
  content : List Char
deriving DecidableEq

/-- `emojiAnnotation` (generate.go:135-138): a name and a keyword list. -/
structure EmojiAnnotation where
  name : List Char
  annotations : List (List Char)
deriving DecidableEq

/-- The annotation map: `cp` keys to annotation entries. -/
abbrev AnnMap := List (List Char × EmojiAnnotation)

/-- Separator predicate of the keyword split (generate.go:166): a space or a
pipe character. -/
def annSep (c : Char) : Bool := c == ' ' || c == '|'

/-- Per-element step of `annotationsInFile` (generate.go:156-168): fetch or
create the entry of the `cp` key; a `tts` element sets the name, any other
element replaces the keyword list with the content split at spaces and
pipes. -/
def annStep (m : AnnMap) (x : XmlAnnotationElem) : AnnMap :=
  let cur := (List.lookup x.cp m).getD ⟨[], []⟩
  let upd :=
    if x.ty = ("tts").toList then { cur with name := x.content }
    else { cur with annotations := fieldsFunc annSep x.content }
  (x.cp, upd) :: m

/-- `annotationsInFile` (generate.go:140-170), element-processing part: fold
the per-element step over the decoded elements in document order. -/
def annotationsInFile (xs : List XmlAnnotationElem) : AnnMap :=
  xs.foldl annStep []

/-- C6 counterexample: a non-tts element with content `red flag|banner` is
stored as the three space-and-pipe-separated fields `red`, `flag`, `banner`,
not as the pipe-separated whitespace-trimmed keywords `red flag` and `banner`
that the claim describes. -/
theorem annotation_fields_split_cex :
    List.lookup ['a']
      (annotationsInFile [⟨['a'], [], ("red flag|banner").toList⟩]) =
      some ⟨[], [("red").toList, ("flag").toList, ("banner").toList]⟩ ∧
    List.lookup ['a']
      (annotationsInFile [⟨['a'], [], ("red flag|banner").toList⟩]) ≠
      some ⟨[], [("red flag").toList, ("banner").toList]⟩ := by
  decide

/-- C6 (amended): for every non-tts element, the extractor stores as that cp
key's keyword list the element content split into maximal runs of characters
that are neither spaces nor pipes (Go `strings.FieldsFunc`), keeping the
previously stored name; when the same cp has repeated non-tts elements the
last one overwrites the stored list rather than merging. -/
theorem annotation_non_tts_overwrite (xs : List XmlAnnotationElem)
    (x : XmlAnnotationElem) (hty : x.ty ≠ ("tts").toList) :
    List.lookup x.cp (annotationsInFile (xs ++ [x])) =
      some ⟨((List.lookup x.cp (annotationsInFile xs)).getD ⟨[], []⟩).name,
        fieldsFunc annSep x.content⟩ := by
  unfold annotationsInFile
  rw [List.foldl_append]
  show List.lookup x.cp (annStep (List.foldl annStep [] xs) x) = _
  have htl : ("tts").toList = ['t', 't', 's'] := rfl
  rw [htl] at hty
  unfold annStep
  simp [List.lookup, hty]

/-- Witness for the C6 theorem: a tts element followed by a non-tts element
for the same cp; the stored entry keeps the tts name and holds the split
fields of the later element. -/
theorem annotation_non_tts_overwrite_witness :
    ((⟨['a'], [], ("x y").toList⟩ : XmlAnnotationElem).ty ≠ ("tts").toList) ∧
    List.lookup (XmlAnnotationElem.cp ⟨['a'], [], ("x y").toList⟩)
      (annotationsInFile ([⟨['a'], ("tts").toList, ("thumbs up").toList⟩] ++
        [⟨['a'], [], ("x y").toList⟩])) =
      some ⟨((List.lookup (XmlAnnotationElem.cp ⟨['a'], [], ("x y").toList⟩)
          (annotationsInFile [⟨['a'], ("tts").toList, ("thumbs up").toList⟩])).getD
          ⟨[], []⟩).name,
        fieldsFunc annSep (XmlAnnotationElem.content ⟨['a'], [], ("x y").toList⟩)⟩ :=
  ⟨by decide,
    annotation_non_tts_overwrite [⟨['a'], ("tts").toList, ("thumbs up").toList⟩]
      ⟨['a'], [], ("x y").toList⟩ (by decide)⟩

/-- Go `strings.Contains(s, sub)`: `sub` occurs as a contiguous substring of
`s`. -/
def goContains (s sub : List Char) : Bool := decide (sub <:+: s)

/-- Go `strings.Join(elems, " ")`. -/
def joinSpace : List (List Char) → List Char
  | [] => []
  | [x] => x
  | x :: xs => x ++ ' ' :: joinSpace xs

/-- The annotation field printed by the driver (generate.go:306-311): delete
every keyword contained in the name, print the name, and append the
space-joined remaining keywords when that joined string is non-empty. -/
def renderField (name : List Char) (kws : List (List Char)) : List Char :=
  let remaining := kws.filter (fun s => !goContains name s)
  let joined := joinSpace remaining
  name ++ (if joined = [] then [] else ' ' :: joined)

/-- One output line of the driver (generate.go:307-311): the emoji, a space,
and the annotation field. -/
def outputLine (e : Emoji) (name : List Char) (kws : List (List Char)) :
    List Char :=
  e ++ ' ' :: renderField name kws

/-- Specification-side rendering (spec §4.4): the name followed by exactly
the keywords that are not substrings of the name, space separated. -/
def specAnnotationField (name : List Char) (kws : List (List Char)) :
    List Char :=
  joinSpace (name :: kws.filter (fun k => !decide (k <:+: name)))

theorem joinSpace_cons_eq (name : List Char) (rem : List (List Char))
    (h : ∀ k ∈ rem, k ≠ []) :
    name ++ (if joinSpace rem = [] then [] else ' ' :: joinSpace rem) =
      joinSpace (name :: rem) := by
  cases rem with
  | nil => simp [joinSpace]
  | cons r rs =>
    have hj : joinSpace (r :: rs) ≠ [] := by
      cases rs with
      | nil =>
          have : r ≠ [] := h r (by simp)
          simpa [joinSpace] using this
      | cons r2 rs2 => simp [joinSpace]
    simp [joinSpace, hj]

theorem mem_filter_not_contains_ne_nil {name k : List Char}
    {kws : List (List Char)}
    (hk : k ∈ kws.filter (fun s => !goContains name s)) : k ≠ [] := by
  have hp := List.of_mem_filter hk
  intro hknil
  subst hknil
  simp [goContains, List.nil_infix] at hp

theorem renderField_eq_spec (name : List Char) (kws : List (List Char)) :
    renderField name kws = specAnnotationField name kws :=
  joinSpace_cons_eq name (kws.filter (fun s => !goContains name s))
    (fun _ hk => mem_filter_not_contains_ne_nil hk)

/-- C7: the driver's output line for an emoji with annotation entry
`(name, keywords)` is the emoji, a space, then the name followed by exactly
the keywords that are not substrings of the name (case-sensitive exact
containment, not word-boundary aware), space separated, as the single
annotation field. -/
theorem output_line_annotation_field (e : Emoji) (name : List Char)
    (kws : List (List Char)) :
    outputLine e name kws = e ++ ' ' :: specAnnotationField name kws := by
  unfold outputLine
  rw [renderField_eq_spec]

/-- Separator set of the `<` rule-line split (generate.go:241): a space, `<`,
`=`, or an apostrophe. -/
def collSep (c : Char) : Bool :=
  c == ' ' || c == '<' || c == '=' || c == Char.ofNat 39

/-- Insert one key at the current rank and advance the counter by one
(generate.go:237-238 and 242-243). -/
def insertRank (st : RankTable × Int) (k : Emoji) : RankTable × Int :=
  ((k, st.2) :: st.1, st.2 + 1)

/-- Shape of one line of the collation rule text, following the if/else chain
of generate.go:232-246: skipped (blank, `#` comment or `&` reset), a `<*`
line with its remaining characters, a `<` line with its remaining text, or a
format error. -/
inductive RuleLine where
  | skip : RuleLine
  | star : List Char → RuleLine
  | lt : List Char → RuleLine
  | bad : RuleLine

/-- Classify one rule line exactly as the if/else chain of
generate.go:232-246 does. -/
def classifyLine (line : List Char) : RuleLine :=
  if line = [] ∨ line.head? = some '#' ∨ line.head? = some '&' then .skip
  else
    match line with
    | '<' :: '*' :: cs => .star cs
    | '<' :: rest => .lt rest
    | _ => .bad

/-- One line of the collation rule text (generate.go:231-248): skip blank,
comment and reset lines; a `<*` line inserts each following character of the
line as a single-codepoint key exactly as written; a `<` line inserts each
selector-stripped field; any other line is a format error. -/
def lineStep (st : RankTable × Int) (line : List Char) :
    PResult (RankTable × Int) :=
  match classifyLine line with
  | .skip => .ok st
  | .star cs => .ok (cs.foldl (fun s c => insertRank s [c]) st)
  | .lt rest =>
      .ok ((fieldsFunc collSep rest).foldl
        (fun s f => insertRank s (removePresentationSelector f)) st)
  | .bad => .fails

/-- The line loop of `collationData` (generate.go:229-249): fold `lineStep`
over the rule lines starting from the empty table and counter 1, stopping at
the first format error. -/
def collProcess : RankTable × Int → List (List Char) → PResult (RankTable × Int)
  | st, [] => .ok st
  | st, l :: ls =>
    match lineStep st l with
    | .ok st2 => collProcess st2 ls
    | .fails => .fails
    | .panics => .panics

/-- The key/rank pairs a `<*` line assigns: the i-th listed character becomes
a single-codepoint key with rank `n + i`. -/
def starAssignments (n : Int) : List Char → List (Emoji × Int)
  | [] => []
  | c :: cs => ([c], n) :: starAssignments (n + 1) cs

/-- The key/rank pairs a `<` line assigns: the i-th field becomes a
selector-stripped key with rank `n + i`. -/
def fieldsAssignments (n : Int) : List (List Char) → List (Emoji × Int)
  | [] => []
  | f :: fs => (removePresentationSelector f, n) :: fieldsAssignments (n + 1) fs

theorem starFold_eq (cs : List Char) : ∀ (t : RankTable) (n : Int),
    cs.foldl (fun s c => insertRank s [c]) (t, n) =
      ((starAssignments n cs).reverse ++ t, n + cs.length) := by
  induction cs with
  | nil => intro t n; simp [starAssignments]
  | cons c cs ih =>
      intro t n
      simp only [List.foldl_cons]
      show cs.foldl (fun s c => insertRank s [c]) (([c], n) :: t, n + 1) = _
      rw [ih (([c], n) :: t) (n + 1)]
      simp only [starAssignments, List.reverse_cons, List.append_assoc,
        List.singleton_append, List.length_cons, Prod.mk.injEq, true_and]
      push_cast
      ring

theorem fieldsFold_eq (fs : List (List Char)) : ∀ (t : RankTable) (n : Int),
    fs.foldl (fun s f => insertRank s (removePresentationSelector f)) (t, n) =
      ((fieldsAssignments n fs).reverse ++ t, n + fs.length) := by
  induction fs with
  | nil => intro t n; simp [fieldsAssignments]
  | cons f fs ih =>
      intro t n
      simp only [List.foldl_cons]
      show fs.foldl (fun s f => insertRank s (removePresentationSelector f))
        ((removePresentationSelector f, n) :: t, n + 1) = _
      rw [ih ((removePresentationSelector f, n) :: t) (n + 1)]
      simp only [fieldsAssignments, List.reverse_cons, List.append_assoc,
        List.singleton_append, List.length_cons, Prod.mk.injEq, true_and]
      push_cast
      ring

/-- C5 (amended): a `<*` rule line stores each remaining character of the
line individually as a single-codepoint key exactly as written — without
presentation-selector stripping — assigning consecutive ranks n, n+1, ...
starting at the current counter value, and advances the counter by the number
of listed characters. -/
theorem collation_star_line (t : RankTable) (n : Int) (cs : List Char) :
    lineStep (t, n) ('<' :: '*' :: cs) =
      .ok ((starAssignments n cs).reverse ++ t, n + cs.length) := by
  show PResult.ok (cs.foldl (fun s c => insertRank s [c]) (t, n)) = _
  rw [starFold_eq]

/-- C5 counterexample: a `<*` line listing the presentation selector itself
stores the one-codepoint key `[U+FE0F]` unchanged — a stored key that still
contains U+FE0F — while its selector-stripped form (the empty string) is not
a key, contradicting the claim that every key stored from a `<*` line has the
selector stripped. -/
theorem collation_star_unstripped_cex :
    collProcess ([], 1) [['<', '*', Char.ofNat 0xFE0F]] =
      .ok ([([Char.ofNat 0xFE0F], 1)], 2) ∧
    List.lookup (removePresentationSelector [Char.ofNat 0xFE0F])
      [([Char.ofNat 0xFE0F], (1 : Int))] = none := by
  decide

/-- Number of keys a rule line assigns (spec §4.5): none for a skipped line,
one per listed character for a `<*` line, one per split field for a `<`
line. -/
def keysAssigned (line : List Char) : Nat :=
  match classifyLine line with
  | .skip => 0
  | .star cs => cs.length
  | .lt rest => (fieldsFunc collSep rest).length
  | .bad => 0

/-- Total number of keys assigned by a list of rule lines. -/
def totalAssigned (lines : List (List Char)) : Nat :=
  (lines.map keysAssigned).sum

theorem starAssignments_rank_mem (cs : List Char) : ∀ (n : Int)
    (p : Emoji × Int), p ∈ starAssignments n cs →
    n ≤ p.2 ∧ p.2 < n + cs.length := by
  induction cs with
  | nil => intro n p hp; cases hp
  | cons c cs ih =>
      intro n p hp
      cases hp with
      | head =>
          show n ≤ n ∧ n < n + ((cs.length + 1 : Nat) : Int)
          omega
      | tail _ hp =>
          have h2 := ih (n + 1) p hp
          show n ≤ p.2 ∧ p.2 < n + ((cs.length + 1 : Nat) : Int)
          omega

theorem fieldsAssignments_rank_mem (fs : List (List Char)) : ∀ (n : Int)
    (p : Emoji × Int), p ∈ fieldsAssignments n fs →
    n ≤ p.2 ∧ p.2 < n + fs.length := by
  induction fs with
  | nil => intro n p hp; cases hp
  | cons f fs ih =>
      intro n p hp
      cases hp with
      | head =>
          show n ≤ n ∧ n < n + ((fs.length + 1 : Nat) : Int)
          omega
      | tail _ hp =>
          have h2 := ih (n + 1) p hp
          show n ≤ p.2 ∧ p.2 < n + ((fs.length + 1 : Nat) : Int)
          omega

theorem lookup_assignments_range {lo hi : Int} :
    ∀ (L : List (Emoji × Int)), (∀ p ∈ L, lo ≤ p.2 ∧ p.2 < hi) →
    ∀ (t : RankTable) (k : Emoji) (r : Int),
      List.lookup k (L ++ t) = some r →
      List.lookup k t = some r ∨ (lo ≤ r ∧ r < hi)
  | [], _, t, k, r, h => Or.inl h
  | (k0, r0) :: L, hL, t, k, r, h => by
      rw [List.cons_append, List.lookup_cons] at h
      cases hbeq : k == k0 with
      | true =>
          rw [hbeq] at h
          have hr : r0 = r := by
            have h2 : some r0 = some r := h
            exact Option.some.inj h2
          have hp : lo ≤ r0 ∧ r0 < hi := hL (k0, r0) (List.mem_cons_self _ _)
          subst hr
          exact Or.inr hp
      | false =>
          rw [hbeq] at h
          have h2 : List.lookup k (L ++ t) = some r := h
          exact lookup_assignments_range L
            (fun q hq => hL q (List.mem_cons_of_mem _ hq)) t k r h2

theorem lineStep_invariant {t0 : RankTable} {n0 : Int} {l : List Char}
    {t1 : RankTable} {n1 : Int} (h : lineStep (t0, n0) l = .ok (t1, n1)) :
    n1 = n0 + keysAssigned l ∧
    ∀ k r, List.lookup k t1 = some r →
      List.lookup k t0 = some r ∨ (n0 ≤ r ∧ r < n1) := by
  unfold lineStep at h
  unfold keysAssigned
  cases hc : classifyLine l with
  | skip =>
      rw [hc] at h
      have h2 : PResult.ok ((t0, n0) : RankTable × Int) = .ok (t1, n1) := h
      cases h2
      simp only [hc]
      exact ⟨by simp, fun k r hk => Or.inl hk⟩
  | star cs =>
      rw [hc] at h
      have h2 : PResult.ok (cs.foldl (fun s c => insertRank s [c]) (t0, n0)) =
        .ok (t1, n1) := h
      rw [starFold_eq] at h2
      cases h2
      simp only [hc]
      refine ⟨trivial, fun k r hk => ?_⟩
      exact lookup_assignments_range _
        (fun p hp => starAssignments_rank_mem cs n0 p (List.mem_reverse.mp hp))
        t0 k r hk
  | lt rest =>
      rw [hc] at h
      have h2 : PResult.ok ((fieldsFunc collSep rest).foldl
          (fun s f => insertRank s (removePresentationSelector f)) (t0, n0)) =
        .ok (t1, n1) := h
      rw [fieldsFold_eq] at h2
      cases h2
      simp only [hc]
      refine ⟨trivial, fun k r hk => ?_⟩
      exact lookup_assignments_range _
        (fun p hp => fieldsAssignments_rank_mem (fieldsFunc collSep rest) n0 p
          (List.mem_reverse.mp hp))
        t0 k r hk
  | bad =>
      rw [hc] at h
      have h2 : PResult.fails = PResult.ok ((t1, n1) : RankTable × Int) := h
      exact PResult.noConfusion h2

theorem collProcess_invariant :
    ∀ (lines : List (List Char)) (t0 : RankTable) (n0 : Int)
      (t : RankTable) (n : Int),
      collProcess (t0, n0) lines = .ok (t, n) →
      n = n0 + totalAssigned lines ∧
      ∀ k r, List.lookup k t = some r →
        List.lookup k t0 = some r ∨ (n0 ≤ r ∧ r < n) := by
  intro lines
  induction lines with
  | nil =>
      intro t0 n0 t n h
      have h2 : PResult.ok ((t0, n0) : RankTable × Int) = .ok (t, n) := h
      cases h2
      exact ⟨by simp [totalAssigned], fun k r hk => Or.inl hk⟩
  | cons l ls ih =>
      intro t0 n0 t n h
      unfold collProcess at h
      cases hl : lineStep (t0, n0) l with
      | panics =>
          rw [hl] at h
          have h2 : PResult.panics = PResult.ok ((t, n) : RankTable × Int) := h
          exact PResult.noConfusion h2
      | fails =>
          rw [hl] at h
          have h2 : PResult.fails = PResult.ok ((t, n) : RankTable × Int) := h
          exact PResult.noConfusion h2
      | ok st2 =>
          rw [hl] at h
          have h2 : collProcess st2 ls = .ok (t, n) := h
          rcases st2 with ⟨t1, n1⟩
          have hstep := lineStep_invariant hl
          have hrest := ih t1 n1 t n h2
          have hka : (0 : Int) ≤ keysAssigned l := Int.ofNat_nonneg _
          have hta : (0 : Int) ≤ totalAssigned ls := Int.ofNat_nonneg _
          refine ⟨?_, ?_⟩
          · rw [hrest.1, hstep.1]
            simp only [totalAssigned, List.map_cons, List.sum_cons]
            push_cast
            ring
          · intro k r hk
            rcases hrest.2 k r hk with h1 | h1
            · rcases hstep.2 k r h1 with h3 | h3
              · exact Or.inl h3
              · have hmono : n1 ≤ n := by rw [hrest.1]; omega
                exact Or.inr ⟨h3.1, lt_of_lt_of_le h3.2 hmono⟩
            · have hmono : n0 ≤ n1 := by rw [hstep.1]; omega
              exact Or.inr ⟨le_trans hmono h1.1, h1.2⟩

theorem collProcess_append (ls2 : List (List Char)) :
    ∀ (ls1 : List (List Char)) (st : RankTable × Int),
      collProcess st (ls1 ++ ls2) =
        match collProcess st ls1 with
        | .ok st2 => collProcess st2 ls2
        | .fails => .fails
        | .panics => .panics
  | [], st => rfl
  | l :: ls, st => by
      rw [List.cons_append]
      show (match lineStep st l with
        | .ok st2 => collProcess st2 (ls ++ ls2)
        | .fails => PResult.fails
        | .panics => PResult.panics) =
        match (match lineStep st l with
          | .ok st2 => collProcess st2 ls
          | .fails => PResult.fails
          | .panics => PResult.panics) with
        | .ok st2 => collProcess st2 ls2
        | .fails => PResult.fails
        | .panics => PResult.panics
      cases lineStep st l with
      | panics => rfl
      | fails => rfl
      | ok st2 => exact collProcess_append ls2 ls st2

/-- C4: whenever the collation rule line loop, started from the empty table
and counter 1, succeeds on a list of lines (in particular on any prefix of
the full rule text), the counter equals 1 plus the number of keys assigned so
far, every rank reachable by lookup lies in the interval [1, counter), and a
following `<*` line listing k characters assigns ranks n, n+1, ..., n+k-1
where n is the counter value before that line. -/
theorem collation_counter_invariant (lines : List (List Char))
    (t : RankTable) (n : Int)
    (h : collProcess ([], 1) lines = .ok (t, n)) :
    n = 1 + totalAssigned lines ∧
    (∀ k r, List.lookup k t = some r → 1 ≤ r ∧ r < n) ∧
    (∀ (cs : List Char) (t2 : RankTable) (n2 : Int),
      collProcess ([], 1) (lines ++ ['<' :: '*' :: cs]) = .ok (t2, n2) →
      t2 = (starAssignments n cs).reverse ++ t ∧ n2 = n + cs.length) := by
  have hinv := collProcess_invariant lines [] 1 t n h
  refine ⟨hinv.1, ?_, ?_⟩
  · intro k r hk
    rcases hinv.2 k r hk with h1 | h1
    · exact absurd h1 (by simp)
    · exact h1
  · intro cs t2 n2 h2
    rw [collProcess_append ['<' :: '*' :: cs] lines ([], 1), h] at h2
    have h3 : PResult.ok (cs.foldl (fun s c => insertRank s [c]) (t, n)) =
        PResult.ok (t2, n2) := h2
    rw [starFold_eq] at h3
    cases h3
    exact ⟨rfl, rfl⟩

/-- Witness for the C4 theorem: the single rule line `<*abc` assigns ranks
1, 2, 3 and leaves the counter at 4. -/
theorem collation_counter_invariant_witness :
    collProcess ([], (1 : Int)) ['<' :: '*' :: ("abc").toList] =
      .ok ([(['c'], 3), (['b'], 2), (['a'], 1)], 4) ∧
    ((4 : Int) = 1 + totalAssigned ['<' :: '*' :: ("abc").toList] ∧
    (∀ k r, List.lookup k [(['c'], (3 : Int)), (['b'], 2), (['a'], 1)] =
      some r → 1 ≤ r ∧ r < 4) ∧
    (∀ (cs : List Char) (t2 : RankTable) (n2 : Int),
      collProcess ([], 1) (['<' :: '*' :: ("abc").toList] ++
        ['<' :: '*' :: cs]) = .ok (t2, n2) →
      t2 = (starAssignments 4 cs).reverse ++
        [(['c'], 3), (['b'], 2), (['a'], 1)] ∧ n2 = 4 + cs.length)) :=
  ⟨by decide,
    collation_counter_invariant ['<' :: '*' :: ("abc").toList]
      [(['c'], 3), (['b'], 2), (['a'], 1)] 4 (by decide)⟩

/-- Go `strings.Compare` on the two emoji values: -1, 0 or 1 by lexicographic
comparison.  On the valid UTF-8 strings handled here byte-lexicographic order
coincides with codepoint-lexicographic order. -/
def goCompare : List Char → List Char → Int
  | [], [] => 0
  | [], _ :: _ => -1
  | _ :: _, [] => 1
  | a :: as, b :: bs =>
    if a < b then -1 else if b < a then 1 else goCompare as bs

/-- The sort comparator of the driver (generate.go:293-298): the difference
of the two collation orders when it is non-zero, otherwise `strings.Compare`
of the two emoji. -/
def cmpEmoji (t : RankTable) (e f : Emoji) : Int :=
  if collationOrder e t - collationOrder f t ≠ 0 then
    collationOrder e t - collationOrder f t
  else goCompare e f

/-- The non-strict order induced by the driver's comparator. -/
def emojiLE (t : RankTable) (e f : Emoji) : Prop := cmpEmoji t e f ≤ 0

instance emojiLEDec (t : RankTable) : DecidableRel (emojiLE t) :=
  fun e f => inferInstanceAs (Decidable (cmpEmoji t e f ≤ 0))

/-- `slices.SortFunc(emojis, ...)` (generate.go:293-298).  `slices.SortFunc`
is specified to reorder the slice into an order consistent with the
comparator; since the comparator is antisymmetric (proved below) the sorted
permutation is unique, so any sorting algorithm models it faithfully;
`List.insertionSort` is used here. -/
def sortEmojis (t : RankTable) (es : List Emoji) : List Emoji :=
  List.insertionSort (emojiLE t) es

theorem goCompare_neg : ∀ e f : List Char, goCompare f e = -goCompare e f := by
  intro e
  induction e with
  | nil =>
      intro f
      cases f with
      | nil => rfl
      | cons b bs => rfl
  | cons a as ih =>
      intro f
      cases f with
      | nil => rfl
      | cons b bs =>
          simp only [goCompare]
          split_ifs with h1 h2
          · exact absurd h2 (asymm h1)
          · norm_num
          · norm_num
          · exact ih bs

theorem goCompare_eq_zero : ∀ {e f : List Char}, goCompare e f = 0 → e = f := by
  intro e
  induction e with
  | nil =>
      intro f h
      cases f with
      | nil => rfl
      | cons b bs => exact absurd h (by norm_num [goCompare])
  | cons a as ih =>
      intro f h
      cases f with
      | nil => exact absurd h (by norm_num [goCompare])
      | cons b bs =>
          simp only [goCompare] at h
          by_cases h1 : a < b
          · rw [if_pos h1] at h
            exact absurd h (by norm_num)
          · rw [if_neg h1] at h
            by_cases h2 : b < a
            · rw [if_pos h2] at h
              exact absurd h (by norm_num)
            · rw [if_neg h2] at h
              rw [le_antisymm (not_lt.mp h2) (not_lt.mp h1), ih h]

theorem goCompare_le_zero_cons {a b : Char} {as bs : List Char} :
    goCompare (a :: as) (b :: bs) ≤ 0 ↔
      a < b ∨ (a = b ∧ goCompare as bs ≤ 0) := by
  simp only [goCompare]
  split_ifs with h1 h2
  · simp [h1]
  · constructor
    · intro h; norm_num at h
    · rintro (h | ⟨h, _⟩)
      · exact absurd h h1
      · subst h; exact absurd h2 (lt_irrefl a)
  · have hab : a = b := le_antisymm (not_lt.mp h2) (not_lt.mp h1)
    subst hab
    simp [lt_irrefl]

theorem goCompare_trans : ∀ {e f g : List Char},
    goCompare e f ≤ 0 → goCompare f g ≤ 0 → goCompare e g ≤ 0 := by
  intro e
  induction e with
  | nil =>
      intro f g _ _
      cases g with
      | nil => norm_num [goCompare]
      | cons c cs => norm_num [goCompare]
  | cons a as ih =>
      intro f g h1 h2
      cases f with
      | nil => norm_num [goCompare] at h1
      | cons b bs =>
          cases g with
          | nil => norm_num [goCompare] at h2
          | cons c cs =>
              rw [goCompare_le_zero_cons] at h1 h2 ⊢
              rcases h1 with h1 | ⟨h1, h1le⟩
              · rcases h2 with h2 | ⟨h2, h2le⟩
                · exact Or.inl (lt_trans h1 h2)
                · subst h2; exact Or.inl h1
              · subst h1
                rcases h2 with h2 | ⟨h2, h2le⟩
                · exact Or.inl h2
                · subst h2; exact Or.inr ⟨rfl, ih h1le h2le⟩

theorem cmpEmoji_neg (t : RankTable) (e f : Emoji) :
    cmpEmoji t f e = -cmpEmoji t e f := by
  unfold cmpEmoji
  by_cases h : collationOrder e t - collationOrder f t = 0
  · rw [if_neg (by omega), if_neg (by omega)]
    exact goCompare_neg e f
  · rw [if_pos (by omega), if_pos (by omega)]
    omega

theorem cmpEmoji_le_iff (t : RankTable) (e f : Emoji) :
    cmpEmoji t e f ≤ 0 ↔
      (collationOrder e t < collationOrder f t ∨
        (collationOrder e t = collationOrder f t ∧ goCompare e f ≤ 0)) := by
  unfold cmpEmoji
  by_cases h : collationOrder e t - collationOrder f t = 0
  · rw [if_neg (by omega)]
    constructor
    · intro hg; exact Or.inr ⟨by omega, hg⟩
    · rintro (hlt | ⟨_, hg⟩)
      · exact absurd hlt (by omega)
      · exact hg
  · rw [if_pos (by omega)]
    constructor
    · intro hle; exact Or.inl (by omega)
    · rintro (hlt | ⟨heq, _⟩)
      · omega
      · exact absurd heq (by omega)

instance emojiLETrans (t : RankTable) : IsTrans Emoji (emojiLE t) := by
  refine ⟨fun a b c h1 h2 => ?_⟩
  unfold emojiLE at h1 h2 ⊢
  rw [cmpEmoji_le_iff] at h1 h2 ⊢
  rcases h1 with h1 | ⟨h1, h1le⟩ <;> rcases h2 with h2 | ⟨h2, h2le⟩
  · exact Or.inl (lt_trans h1 h2)
  · exact Or.inl (by omega)
  · exact Or.inl (by omega)
  · exact Or.inr ⟨by omega, goCompare_trans h1le h2le⟩

instance emojiLETotal (t : RankTable) : IsTotal Emoji (emojiLE t) := by
  refine ⟨fun a b => ?_⟩
  unfold emojiLE
  have := cmpEmoji_neg t a b
  omega

instance emojiLEAntisymm (t : RankTable) : IsAntisymm Emoji (emojiLE t) := by
  refine ⟨fun a b h1 h2 => ?_⟩
  unfold emojiLE at h1 h2
  have hneg := cmpEmoji_neg t a b
  have hz : cmpEmoji t a b = 0 := by omega
  unfold cmpEmoji at hz
  by_cases h : collationOrder a t - collationOrder b t = 0
  · rw [if_neg (by omega)] at hz
    exact goCompare_eq_zero hz
  · rw [if_pos (by omega)] at hz
    exact absurd hz h

/-- The line the driver prints for one emoji, when its selector-stripped key
has an annotation entry (generate.go:299-311). -/
def renderLine (a : AnnMap) (e : Emoji) : Option (List Char) :=
  (List.lookup (removePresentationSelector e) a).map
    (fun ann => outputLine e ann.name ann.annotations)

/-- The print loop of `generate` (generate.go:299-312): print one line per
emoji in order; at the first emoji whose selector-stripped key has no
annotation entry, stop and fail with the fatal error
`emoji %q has no annotation` — modelled by returning the offending emoji
alongside the lines already printed. -/
def driverLoop (a : AnnMap) : List Emoji → List (List Char) × Option Emoji
  | [] => ([], none)
  | e :: rest =>
    match List.lookup (removePresentationSelector e) a with
    | none => ([], some e)
    | some ann =>
      let r := driverLoop a rest
      (outputLine e ann.name ann.annotations :: r.1, r.2)

/-- `generate` (generate.go:263-314) after the emoji set, the merged
annotation map and the collation table are built: sort, then print line by
line.  The result is the printed lines and, when some emoji lacks an
annotation, the emoji named by the fatal error. -/
def generateOutput (es : List Emoji) (a : AnnMap) (t : RankTable) :
    List (List Char) × Option Emoji :=
  driverLoop a (sortEmojis t es)

theorem driverLoop_all_some (a : AnnMap) : ∀ l : List Emoji,
    (∀ e ∈ l, (List.lookup (removePresentationSelector e) a).isSome) →
    driverLoop a l = (l.filterMap (renderLine a), none) ∧
    (l.filterMap (renderLine a)).length = l.length := by
  intro l
  induction l with
  | nil => intro _; exact ⟨rfl, rfl⟩
  | cons e rest ih =>
      intro h
      have he := h e (by simp)
      rcases Option.isSome_iff_exists.mp he with ⟨ann, hann⟩
      have ihr := ih (fun x hx => h x (by simp [hx]))
      have hstep : driverLoop a (e :: rest) =
          (outputLine e ann.name ann.annotations :: (driverLoop a rest).1,
            (driverLoop a rest).2) := by
        show (match List.lookup (removePresentationSelector e) a with
          | none => (([] : List (List Char)), some e)
          | some ann =>
            (outputLine e ann.name ann.annotations :: (driverLoop a rest).1,
              (driverLoop a rest).2)) = _
        rw [hann]
      have hrl : renderLine a e =
          some (outputLine e ann.name ann.annotations) := by
        unfold renderLine
        rw [hann]
        rfl
      have hfm : List.filterMap (renderLine a) (e :: rest) =
          outputLine e ann.name ann.annotations ::
            List.filterMap (renderLine a) rest :=
        List.filterMap_cons_some hrl
      constructor
      · rw [hstep, ihr.1, hfm]
      · rw [hfm]
        simp only [List.length_cons, ihr.2]

/-- C2: when every emoji of the built set has an annotation, the driver
prints exactly one line per emoji of the set, in the order given by sorting
with `collationOrder` ascending and ties broken by lexical codepoint-sequence
comparison ascending; because the tie-break distinguishes all distinct
strings the sorted permutation is unique, so any permutation of the same set
(and hence any run over the same input files) produces identical output. -/
theorem generate_sorted_deterministic (es : List Emoji) (a : AnnMap)
    (t : RankTable)
    (h : ∀ e ∈ es, (List.lookup (removePresentationSelector e) a).isSome) :
    (sortEmojis t es).Perm es ∧
    List.Sorted (emojiLE t) (sortEmojis t es) ∧
    generateOutput es a t = ((sortEmojis t es).filterMap (renderLine a), none) ∧
    (generateOutput es a t).1.length = es.length ∧
    ∀ es' : List Emoji, es'.Perm es → sortEmojis t es' = sortEmojis t es := by
  have hperm : (sortEmojis t es).Perm es := List.perm_insertionSort _ es
  have hsorted : List.Sorted (emojiLE t) (sortEmojis t es) :=
    List.sorted_insertionSort _ es
  have hall : ∀ e ∈ sortEmojis t es,
      (List.lookup (removePresentationSelector e) a).isSome :=
    fun e he => h e (hperm.mem_iff.mp he)
  have hloop := driverLoop_all_some a (sortEmojis t es) hall
  refine ⟨hperm, hsorted, hloop.1, ?_, ?_⟩
  · show (driverLoop a (sortEmojis t es)).1.length = es.length
    rw [hloop.1]
    show (List.filterMap (renderLine a) (sortEmojis t es)).length = es.length
    rw [hloop.2]
    exact hperm.length_eq
  · intro es' hp
    refine List.eq_of_perm_of_sorted ?_ (List.sorted_insertionSort _ es') hsorted
    exact (List.perm_insertionSort _ es').trans (hp.trans hperm.symm)

/-- Witness for the C2 theorem on a two-element set whose ranks reverse the
given order. -/
theorem generate_sorted_deterministic_witness :
    (∀ e ∈ ([[Char.ofNat 98], [Char.ofNat 97]] : List Emoji),
      (List.lookup (removePresentationSelector e)
        ([([Char.ofNat 97], ⟨[Char.ofNat 65], []⟩),
          ([Char.ofNat 98], ⟨[Char.ofNat 66], []⟩)] : AnnMap)).isSome) ∧
    ((sortEmojis [([Char.ofNat 97], 2), ([Char.ofNat 98], 1)]
        [[Char.ofNat 98], [Char.ofNat 97]]).Perm
      [[Char.ofNat 98], [Char.ofNat 97]] ∧
    List.Sorted (emojiLE [([Char.ofNat 97], 2), ([Char.ofNat 98], 1)])
      (sortEmojis [([Char.ofNat 97], 2), ([Char.ofNat 98], 1)]
        [[Char.ofNat 98], [Char.ofNat 97]]) ∧
    generateOutput [[Char.ofNat 98], [Char.ofNat 97]]
      [([Char.ofNat 97], ⟨[Char.ofNat 65], []⟩),
        ([Char.ofNat 98], ⟨[Char.ofNat 66], []⟩)]
      [([Char.ofNat 97], 2), ([Char.ofNat 98], 1)] =
      ((sortEmojis [([Char.ofNat 97], 2), ([Char.ofNat 98], 1)]
          [[Char.ofNat 98], [Char.ofNat 97]]).filterMap
        (renderLine [([Char.ofNat 97], ⟨[Char.ofNat 65], []⟩),
          ([Char.ofNat 98], ⟨[Char.ofNat 66], []⟩)]), none) ∧
    (generateOutput [[Char.ofNat 98], [Char.ofNat 97]]
      [([Char.ofNat 97], ⟨[Char.ofNat 65], []⟩),
        ([Char.ofNat 98], ⟨[Char.ofNat 66], []⟩)]
      [([Char.ofNat 97], 2), ([Char.ofNat 98], 1)]).1.length =
      ([[Char.ofNat 98], [Char.ofNat 97]] : List Emoji).length ∧
    ∀ es' : List Emoji,
      es'.Perm [[Char.ofNat 98], [Char.ofNat 97]] →
      sortEmojis [([Char.ofNat 97], 2), ([Char.ofNat 98], 1)] es' =
        sortEmojis [([Char.ofNat 97], 2), ([Char.ofNat 98], 1)]
          [[Char.ofNat 98], [Char.ofNat 97]]) :=
  ⟨by decide,
    generate_sorted_deterministic [[Char.ofNat 98], [Char.ofNat 97]]
      [([Char.ofNat 97], ⟨[Char.ofNat 65], []⟩),
        ([Char.ofNat 98], ⟨[Char.ofNat 66], []⟩)]
      [([Char.ofNat 97], 2), ([Char.ofNat 98], 1)] (by decide)⟩

theorem driverLoop_stops (a : AnnMap) : ∀ (pre post : List Emoji) (e : Emoji),
    (∀ x ∈ pre, (List.lookup (removePresentationSelector x) a).isSome) →
    List.lookup (removePresentationSelector e) a = none →
    driverLoop a (pre ++ e :: post) =
      (pre.filterMap (renderLine a), some e) := by
  intro pre
  induction pre with
  | nil =>
      intro post e _ he
      show (match List.lookup (removePresentationSelector e) a with
        | none => (([] : List (List Char)), some e)
        | some ann =>
          (outputLine e ann.name ann.annotations :: (driverLoop a post).1,
            (driverLoop a post).2)) = (List.filterMap (renderLine a) [], some e)
      rw [he, List.filterMap_nil]
  | cons x pre ih =>
      intro post e hpre he
      have hx := hpre x (by simp)
      rcases Option.isSome_iff_exists.mp hx with ⟨ann, hann⟩
      have hstep : driverLoop a (x :: (pre ++ e :: post)) =
          (outputLine x ann.name ann.annotations ::
            (driverLoop a (pre ++ e :: post)).1,
            (driverLoop a (pre ++ e :: post)).2) := by
        show (match List.lookup (removePresentationSelector x) a with
          | none => (([] : List (List Char)), some x)
          | some ann =>
            (outputLine x ann.name ann.annotations ::
              (driverLoop a (pre ++ e :: post)).1,
              (driverLoop a (pre ++ e :: post)).2)) = _
        rw [hann]
      have hrl : renderLine a x =
          some (outputLine x ann.name ann.annotations) := by
        unfold renderLine
        rw [hann]
        rfl
      rw [List.cons_append, hstep,
        ih post e (fun y hy => hpre y (by simp [hy])) he,
        List.filterMap_cons_some hrl]

/-- C8: if some emoji of the set has no entry in the merged annotation map
under its selector-stripped key, the run prints exactly the lines of the
emoji that precede the first such emoji in sort order (streaming output) and
then fails with the fatal `emoji %q has no annotation` error naming that
emoji; no line for it or for any later emoji is printed. -/
theorem generate_missing_annotation_fatal (es pre post : List Emoji)
    (e : Emoji) (a : AnnMap) (t : RankTable)
    (hs : sortEmojis t es = pre ++ e :: post)
    (hpre : ∀ x ∈ pre, (List.lookup (removePresentationSelector x) a).isSome)
    (he : List.lookup (removePresentationSelector e) a = none) :
    generateOutput es a t = (pre.filterMap (renderLine a), some e) := by
  unfold generateOutput
  rw [hs]
  exact driverLoop_stops a pre post e hpre he

/-- Witness for the C8 theorem: the second emoji in sort order has no
annotation; the first emoji's line is printed, then the run fails naming the
second. -/
theorem generate_missing_annotation_fatal_witness :
    sortEmojis [([Char.ofNat 97], 2), ([Char.ofNat 98], 1)]
      [[Char.ofNat 97], [Char.ofNat 98]] =
      [[Char.ofNat 98]] ++ [Char.ofNat 97] :: [] ∧
    (∀ x ∈ ([[Char.ofNat 98]] : List Emoji),
      (List.lookup (removePresentationSelector x)
        ([([Char.ofNat 98], ⟨[Char.ofNat 66], []⟩)] : AnnMap)).isSome) ∧
    List.lookup (removePresentationSelector [Char.ofNat 97])
      ([([Char.ofNat 98], ⟨[Char.ofNat 66], []⟩)] : AnnMap) = none ∧
    generateOutput [[Char.ofNat 97], [Char.ofNat 98]]
      [([Char.ofNat 98], ⟨[Char.ofNat 66], []⟩)]
      [([Char.ofNat 97], 2), ([Char.ofNat 98], 1)] =
      (([[Char.ofNat 98]] : List Emoji).filterMap
        (renderLine [([Char.ofNat 98], ⟨[Char.ofNat 66], []⟩)]),
        some [Char.ofNat 97]) :=
  ⟨by decide, by decide, by decide,
    generate_missing_annotation_fatal [[Char.ofNat 97], [Char.ofNat 98]]
      [[Char.ofNat 98]] [] [Char.ofNat 97]
      [([Char.ofNat 98], ⟨[Char.ofNat 66], []⟩)]
      [([Char.ofNat 97], 2), ([Char.ofNat 98], 1)]
      (by decide) (by decide) (by decide)⟩

/-- Outcomes of the I/O operations `getCached` performs, supplied as an
oracle: whether `os.Stat` reports the cache file as not existing, and whether
the HTTP get (including its status check), `os.MkdirAll`, `os.Create`,
`io.Copy` and `f.Close` succeed. -/
structure CacheOracle where
  statNotExist : Bool
  getOK : Bool
  mkdirOK : Bool
  createOK : Bool
  copyOK : Bool
  closeOK : Bool
deriving DecidableEq

/-- Result of a `getCached` run: whether it returned the cache path or an
error, paired with whether the cache file exists on disk afterwards. -/
inductive FetchResult where
  | ok : FetchResult
  | err : FetchResult
deriving DecidableEq

/-- `getCached` of the variant without `MkdirAll` (part_001 lines 30-53):
on a cache hit return the path; otherwise fetch, create the file, copy, and
`return cachePath, f.Close()`.  A failed copy closes and removes the file; a
failed close surfaces the close error with the file left in place.  The
second component of the result tracks whether the cache file exists
afterwards. -/
def getCachedNoMkdir (o : CacheOracle) : FetchResult × Bool :=
  if !o.statNotExist then (.ok, true)
  else if !o.getOK then (.err, false)
  else if !o.createOK then (.err, false)
  else if !o.copyOK then (.err, false)
  else if !o.closeOK then (.err, true)
  else (.ok, true)

/-- `getCached` of the variant with `MkdirAll` (part_000 lines 30-60): as
above but with an `os.MkdirAll` step before `os.Create`, and with
`os.Remove(cachePath)` before surfacing a failed `f.Close` as well as a
failed `io.Copy`. -/
def getCachedMkdir (o : CacheOracle) : FetchResult × Bool :=
  if !o.statNotExist then (.ok, true)
  else if !o.getOK then (.err, false)
  else if !o.mkdirOK then (.err, false)
  else if !o.createOK then (.err, false)
  else if !o.copyOK then (.err, false)
  else if !o.closeOK then (.err, false)
  else (.ok, true)

/-- C9 counterexample: in the variant without `MkdirAll` (part_001), when the
fetch, create and copy succeed but the final `f.Close()` fails, `getCached`
returns the close error while the cache file is still on disk — the partial
cache entry is not removed before the error is surfaced. -/
theorem getCached_close_fail_cex :
    getCachedNoMkdir ⟨true, true, true, true, true, false⟩ = (.err, true) := by
  decide

/-- C9 (amended): a failed write (`io.Copy`) after the cache file has been
created removes the partial file before the error is surfaced in both
variants of `getCached`; the variant with `MkdirAll` (part_000) also removes
the file when any later error occurs, including a failed close — but the
variant without `MkdirAll` (part_001) leaves the file in place when only the
final close fails. -/
theorem getCached_partial_removed (o : CacheOracle)
    (hstat : o.statNotExist = true) (hget : o.getOK = true)
    (hcreate : o.createOK = true) :
    (o.copyOK = false →
      getCachedNoMkdir o = (.err, false) ∧
      (o.mkdirOK = true → getCachedMkdir o = (.err, false))) ∧
    (o.mkdirOK = true → (getCachedMkdir o).1 = .err →
      (getCachedMkdir o).2 = false) := by
  rcases o with ⟨s, g, m, cr, cp, cl⟩
  simp only at hstat hget hcreate
  subst hstat hget hcreate
  cases m <;> cases cp <;> cases cl <;> decide

/-- Witness for the C9 theorem at a failed-copy oracle. -/
theorem getCached_partial_removed_witness :
    ((⟨true, true, true, true, false, true⟩ : CacheOracle).statNotExist = true) ∧
    ((⟨true, true, true, true, false, true⟩ : CacheOracle).getOK = true) ∧
    ((⟨true, true, true, true, false, true⟩ : CacheOracle).createOK = true) ∧
    (((⟨true, true, true, true, false, true⟩ : CacheOracle).copyOK = false →
      getCachedNoMkdir ⟨true, true, true, true, false, true⟩ = (.err, false) ∧
      ((⟨true, true, true, true, false, true⟩ : CacheOracle).mkdirOK = true →
        getCachedMkdir ⟨true, true, true, true, false, true⟩ = (.err, false))) ∧
    ((⟨true, true, true, true, false, true⟩ : CacheOracle).mkdirOK = true →
      (getCachedMkdir ⟨true, true, true, true, false, true⟩).1 = .err →
      (getCachedMkdir ⟨true, true, true, true, false, true⟩).2 = false)) :=
  ⟨rfl, rfl, rfl,
    getCached_partial_removed ⟨true, true, true, true, false, true⟩
      rfl rfl rfl⟩

end EmojiGen
